import Mathlib

/-!
# Verification of ControlLeaveReader (src/app.py)

A shallow embedding of the two core algorithms of `src/app.py`:

* `extract_holidays` (src/app.py lines 109-144) together with its helper
  `clean_leave_type` (lines 37-40): a forward scan over a 2-D grid of
  spreadsheet cells that collects one person's leave entries, guided by
  "anchor" rows whose column-2 cell is date-typed.

* `fetch_google_events` (src/app.py lines 42-107): expansion of calendar
  event occurrences into a date-keyed map of "; "-joined display strings,
  with per-day de-duplication and an "al ref" priority filter.

Modelling conventions:

* Calendar dates are modelled as integers at whole-day granularity
  (adding one day is `+ 1`); `datetime.datetime` versus `datetime.date`
  values are distinguished by the `DtVal` constructors, both resolving to
  their day number, mirroring the `isinstance(..., datetime.datetime)`
  branches of the source.
* A spreadsheet cell is a `Cell`: a date-typed value, a text value, a
  numeric value, or a missing value (pandas `NaN`).  `str(cell)` is
  modelled by `cellStr`; the exact rendering of a date cell is immaterial
  to every claim, only that it is some fixed string.
* Python dicts preserve insertion order, so the `events_map` dict is
  modelled as an association list updated in insertion order.
* The `while current_curr < end_date` loop runs exactly
  `(end_date - start_date).toNat` iterations; it is modelled by structural
  recursion on that iteration count (`addDaysGo`).
* Fallible external actions (the HTTP fetch plus iCal parse) enter the
  model as an `Except String` argument; the event-processing loop itself
  returns `Except String` so that a mid-loop Python exception (for example
  a missing `DTSTART`) is modelled faithfully: the enclosing
  `try/except` of the source turns any such error into an empty map.
-/

namespace ControlLeaveReader

/-- A resolved date-or-datetime value (`DTSTART`/`DTEND` payload or a
date-typed spreadsheet cell).  `.datetime d` models a
`datetime.datetime` whose `.date()` is day `d`; `.dateonly d` models a
plain `datetime.date`. -/
inductive DtVal where
  | datetime (day : Int)
  | dateonly (day : Int)
deriving Repr, DecidableEq

/-- Resolving a `DTSTART`/`DTEND` value to date granularity: the source's
`if isinstance(x, datetime.datetime): x.date() else x` (src/app.py
lines 61-64 and 69-72). -/
def DtVal.toDate : DtVal → Int
  | .datetime d => d
  | .dateonly d => d

/-- One spreadsheet cell as seen by `extract_holidays` after
`pd.read_excel`: a date-typed value (`datetime.datetime`), a text value,
a numeric value, or a missing value (`NaN`). -/
inductive Cell where
  | date (d : Int)
  | text (s : String)
  | num (n : Int)
  | na
deriving Repr, DecidableEq

/-- Python's `str(cell)`.  Text cells render as themselves, missing cells
as `"nan"` (what `str` shows for a pandas `NaN`); the precise rendering of
date and numeric cells is immaterial to the claims, only that it is some
fixed text. -/
def cellStr : Cell → String
  | .date d => "datetime(" ++ toString d ++ ")"
  | .text s => s
  | .num n => toString n
  | .na => "nan"

/-- `pd.notna(cell)` (src/app.py line 138). -/
def cellNotNA : Cell → Bool
  | .na => false
  | _ => true

/-- The `isinstance(cell, datetime.datetime)` test used on the anchor
column and on the cells of an anchor row (src/app.py lines 124 and 128). -/
def isDateCell : Cell → Bool
  | .date _ => true
  | _ => false

/-- The whitespace class of Python's `str.strip()` and of the regex
class `\s` (restricted to ASCII): space, tab, newline, carriage return,
vertical tab, form feed. -/
def isPySpace (c : Char) : Bool :=
  c = ' ' || c = '\t' || c = '\n' || c = '\r' || c = '\x0b' || c = '\x0c'

/-- Python's `str.strip()`: remove leading and trailing whitespace. -/
def pyStrip (s : String) : String :=
  ⟨((s.data.dropWhile isPySpace).reverse.dropWhile isPySpace).reverse⟩

/-- Python's `str.lower()` on one character (ASCII range). -/
def pyLowerChar (c : Char) : Char :=
  if 'A' ≤ c && c ≤ 'Z' then Char.ofNat (c.toNat + 32) else c

/-- Python's `str.lower()`. -/
def pyLower (s : String) : String :=
  ⟨s.data.map pyLowerChar⟩

/-- `clean_leave_type` (src/app.py lines 37-40):
`re.sub(r'[\s\d]+', '', text)` removes every whitespace and digit
character; modelled as filtering those characters out of the string. -/
def clean_leave_type (s : String) : String :=
  ⟨s.data.filter (fun c => !(isPySpace c || c.isDigit))⟩

/-- One extracted leave entry (the dict appended at src/app.py
lines 139-143): `Date`, `Original Type`, `Type`. -/
structure LeaveEntry where
  date : Int
  original : String
  type : String
deriving Repr, DecidableEq

/-- The reserved placeholder strings of src/app.py line 138. -/
def placeholderStrings : List String := ["", "0", "nan", "None", "0.0"]

/-- Rebuilding `current_block_dates` at an anchor row (src/app.py
lines 125-129): the mapping from column index to date for every
date-typed cell at column index `≥ 2`, in ascending column order (the
source iterates `range(2, len(row))`, and dict iteration later follows
this insertion order). -/
def anchorCellAt (row : List Cell) (i : Nat) : Option (Nat × Int) :=
  if 2 ≤ i then
    match row[i]? with
    | some (Cell.date d) => some (i, d)
    | _ => none
  else none

/-- See `anchorCellAt`: the block collects, over the column indices of
the row, the date-typed cells at columns `≥ 2`. -/
def anchorBlock (row : List Cell) : List (Nat × Int) :=
  (List.range row.length).filterMap (anchorCellAt row)

/-- The case- and whitespace-insensitive name comparison of src/app.py
line 132: `str(col_b_val).strip().lower() == target_name.strip().lower()`. -/
def nameMatches (cell : Cell) (target : String) : Bool :=
  pyLower (pyStrip (cellStr cell)) == pyLower (pyStrip target)

/-- The body of the inner `for col_idx, date_val in
current_block_dates.items()` loop of a name-matching row (src/app.py
lines 133-143): for each block column within the row's bounds, keep the
cell when it is non-missing and its trimmed text is not a reserved
placeholder. -/
def entryOf (row : List Cell) (p : Nat × Int) : Option LeaveEntry :=
  match row[p.1]? with
  | none => none
  | some cell =>
    let codeStr := pyStrip (cellStr cell)
    if cellNotNA cell && !(placeholderStrings.contains codeStr) then
      some ⟨p.2, codeStr, clean_leave_type codeStr⟩
    else
      none

/-- See `entryOf`: the inner loop maps it over the active block. -/
def rowEntries (block : List (Nat × Int)) (row : List Cell) : List LeaveEntry :=
  block.filterMap (entryOf row)

/-- The row scan of `extract_holidays` (src/app.py lines 119-143),
carrying `current_block_dates` as `block`.  A row of fewer than 3 cells
is skipped entirely; a row whose column-2 cell is date-typed resets the
block and contributes nothing; otherwise a row whose column-1 text
matches the target while the block is non-empty contributes
`rowEntries`. -/
def extractLoop (rows : List (List Cell)) (block : List (Nat × Int))
    (target : String) : List LeaveEntry :=
  match rows with
  | [] => []
  | row :: rest =>
    if row.length < 3 then
      extractLoop rest block target
    else if isDateCell (row[2]?.getD .na) then
      extractLoop rest (anchorBlock row) target
    else if !block.isEmpty && nameMatches (row[1]?.getD .na) target then
      rowEntries block row ++ extractLoop rest block target
    else
      extractLoop rest block target

/-- `extract_holidays` (src/app.py lines 109-144) applied to an
already-loaded grid: `my_booked_dates` starts empty and
`current_block_dates` starts as the empty dict. -/
def extract_holidays (grid : List (List Cell)) (target : String) : List LeaveEntry :=
  extractLoop grid [] target

/-- The value of `current_block_dates` after the scan of src/app.py
lines 119-130 has consumed the given rows, starting from `block`: rows
of fewer than 3 cells and non-anchor rows leave it unchanged, anchor
rows replace it by their `anchorBlock`.  This is the state trajectory of
`extractLoop`, isolated so that the provenance of an entry (which block
was in force when its row was scanned) can be stated. -/
def blockAfter (block : List (Nat × Int)) : List (List Cell) → List (Nat × Int)
  | [] => block
  | row :: rest =>
    if row.length < 3 then blockAfter block rest
    else if isDateCell (row[2]?.getD Cell.na) then blockAfter (anchorBlock row) rest
    else blockAfter block rest

/-- One expanded calendar event occurrence as consumed by the
`for event in events` loop of `fetch_google_events` (src/app.py
lines 56-88): the `SUMMARY` field if present, and the `DTSTART`/`DTEND`
payloads.  `dtstart = none` models an event lacking `DTSTART`, on which
the source's `event.get('DTSTART').dt` raises (caught by the enclosing
`try/except`). -/
structure ICalEvent where
  summary : Option String
  dtstart : Option DtVal
  dtend : Option DtVal
deriving Repr, DecidableEq

/-- `str(event.get('SUMMARY', 'Busy'))` (src/app.py line 57). -/
def summaryStr (ev : ICalEvent) : String :=
  ev.summary.getD "Busy"

/-- End-date resolution (src/app.py lines 67-74): the resolved `DTEND`
when present, else `start_date + timedelta(days=1)`. -/
def eventEnd (ev : ICalEvent) (startDate : Int) : Int :=
  match ev.dtend with
  | some dv => dv.toDate
  | none => startDate + 1

/-- The zero-length-event guard (src/app.py lines 77-78): if the resolved
start equals the resolved end, force the end to `start + 1`. -/
def effectiveEnd (startDate endDate : Int) : Int :=
  if startDate = endDate then startDate + 1 else endDate

/-- The day-keyed map `events_map` of src/app.py: a Python dict from date
to list of summaries, modelled as an association list in insertion
order. -/
abbrev EventsMap := List (Int × List String)

/-- Dict lookup `events_map[d]` / `d in events_map`. -/
def lookupMap (m : EventsMap) (d : Int) : Option (List String) :=
  match m with
  | [] => none
  | (k, v) :: rest => if k = d then some v else lookupMap rest d

/-- One iteration of the day loop body (src/app.py lines 82-86): if day
`d` is already a key, append the summary to its bucket unless already
present; otherwise insert a new singleton bucket (at the end, as a
Python dict does). -/
def appendDay (m : EventsMap) (d : Int) (s : String) : EventsMap :=
  match m with
  | [] => [(d, [s])]
  | (k, v) :: rest =>
    if k = d then (k, if s ∈ v then v else v ++ [s]) :: rest
    else (k, v) :: appendDay rest d s

/-- The `while current_curr < end_date` loop (src/app.py lines 80-88),
unrolled by its iteration count: `addDaysGo m s a n` performs the body
for days `a, a+1, ..., a+n-1`. -/
def addDaysGo (m : EventsMap) (s : String) (a : Int) : Nat → EventsMap
  | 0 => m
  | n + 1 => addDaysGo (appendDay m a s) s (a + 1) n

/-- The day loop of src/app.py lines 80-88: starting at `start_date`, run
the body while `current_curr < end_date`, which is exactly
`(endDate - startDate).toNat` iterations. -/
def addDays (m : EventsMap) (s : String) (startDate endDate : Int) : EventsMap :=
  addDaysGo m s startDate (endDate - startDate).toNat

/-- Processing one event of the `for event in events` loop (src/app.py
lines 56-88).  A missing `DTSTART` is the Python `AttributeError` raised
by `event.get('DTSTART').dt`, modelled as an error value. -/
def processEvent (m : EventsMap) (ev : ICalEvent) : Except String EventsMap :=
  match ev.dtstart with
  | none => .error "AttributeError: NoneType object has no attribute dt"
  | some dv =>
    let s := dv.toDate
    let e := effectiveEnd s (eventEnd ev s)
    .ok (addDays m (summaryStr ev) s e)

/-- The whole `for event in events` loop: events processed in order; a
raised error aborts the loop (and is caught by the enclosing
`try/except`). -/
def processEvents (m : EventsMap) : List ICalEvent → Except String EventsMap
  | [] => .ok m
  | ev :: rest =>
    match processEvent m ev with
    | .error msg => .error msg
    | .ok m2 => processEvents m2 rest

/-- `leadsWith needle hay`: the character list `needle` is an initial
segment of `hay`. -/
def leadsWith : List Char → List Char → Bool
  | [], _ => true
  | _ :: _, [] => false
  | c :: cs, h :: hs => c = h && leadsWith cs hs

/-- Python's `needle in hay` substring test. -/
def strContains (hay needle : String) : Bool :=
  go needle.data hay.data
where
  go (needle hay : List Char) : Bool :=
    leadsWith needle hay ||
      match hay with
      | [] => false
      | _ :: hs => go needle hs

/-- `"al ref" in s.lower()` (src/app.py line 94). -/
def alRefMatch (s : String) : Bool :=
  strContains (pyLower s) "al ref"

/-- The per-day display text of the `AL ref` filter (src/app.py
lines 93-101): if any summary in the bucket matches, join only the
matching ones with `"; "`, else join them all. -/
def bucketText (v : List String) : String :=
  let alRefEvents := v.filter alRefMatch
  if alRefEvents.isEmpty then String.intercalate "; " v
  else String.intercalate "; " alRefEvents

/-- Building `final_map` from `events_map` (src/app.py lines 91-101):
apply the `AL ref` filter to every day bucket, keeping dict insertion
order. -/
def finalMap (m : EventsMap) : List (Int × String) :=
  m.map fun p => (p.1, bucketText p.2)

/-- Modelled from the spec: the external recurrence-expansion
collaborator `recurring_ical_events.of(calendar).between(start, end)`
(src/app.py line 52) is not part of this repository.  The spec bounds it
to `[start_date, end_date]`; the library returns the occurrences that
happen within the period or overlap it, i.e. whose resolved day span
`[start, effectiveEnd)` intersects the window.  An occurrence lacking
`DTSTART` is passed through so that the processing loop's error path
remains reachable. -/
def eventIntersectsWindow (ev : ICalEvent) (ws we : Int) : Bool :=
  match ev.dtstart with
  | none => true
  | some dv =>
    let s := dv.toDate
    let e := effectiveEnd s (eventEnd ev s)
    decide (s ≤ we) && decide (ws < e)

/-- Modelled from the spec: the bounded recurrence expansion of
src/app.py line 52, filtering the calendar's expanded occurrences to
those intersecting the query window (see `eventIntersectsWindow`). -/
def betweenWindow (cal : List ICalEvent) (ws we : Int) : List ICalEvent :=
  cal.filter fun ev => eventIntersectsWindow ev ws we

/-- `fetch_google_events` (src/app.py lines 42-107).  The fetch and
parse (`requests.get`, `raise_for_status`, `Calendar.from_ical`,
lines 47-49) are external I/O, modelled by the `feed` argument: an error
value for any network or parse failure, else the calendar's expanded
occurrence list.  An empty URL returns the empty map immediately
(line 44); any error inside the `try` block yields the empty map
(lines 105-107). -/
def fetch_google_events (url : String) (feed : Except String (List ICalEvent))
    (startRange endRange : Int) : List (Int × String) :=
  if url = "" then []
  else
    match feed with
    | .error _ => []
    | .ok cal =>
      match processEvents [] (betweenWindow cal startRange endRange) with
      | .error _ => []
      | .ok m => finalMap m

/-- A roster row that opens a new block: its column-2 cell exists and is
date-typed (src/app.py line 124).  A row of fewer than 3 cells has no
column-2 cell, hence is never an anchor. -/
def isAnchorRow (row : List Cell) : Bool :=
  isDateCell (row[2]?.getD Cell.na)

/-- Day `d` is one of the whole days covered by event `ev`'s resolved
span `[start, effectiveEnd)` — the days the loop of src/app.py
lines 80-88 visits for `ev`. -/
def coversDay (ev : ICalEvent) (d : Int) : Prop :=
  ∃ dv, ev.dtstart = some dv ∧
    dv.toDate ≤ d ∧ d < effectiveEnd dv.toDate (eventEnd ev dv.toDate)

/-- C1: for the grid with anchor row whose cells at columns 2 and 3 are
the dates 2024-01-01 and 2024-01-02, followed by the data row
`["", "Smith, John", "AL1", "0"]`, extracting with target name
`"Smith, John"` returns exactly one entry: date 2024-01-01, original
code `"AL1"`, normalized type `"AL"` (the `"0"` cell is a placeholder and
produces no entry; `"AL"` is `"AL1"` with whitespace and digits
removed). -/
theorem extract_end_to_end_single_entry :
    extract_holidays
      [[Cell.na, Cell.na, Cell.date 20240101, Cell.date 20240102],
       [Cell.text "", Cell.text "Smith, John", Cell.text "AL1", Cell.text "0"]]
      "Smith, John"
    = [⟨20240101, "AL1", "AL"⟩] := by
  decide

/-! ### Helper lemmas about the day-keyed events map -/

/-- After the loop body runs for day `d`, day `d` has a bucket containing
the summary. -/
theorem lookupMap_appendDay_self (m : EventsMap) (d : Int) (s : String) :
    ∃ l, lookupMap (appendDay m d s) d = some l ∧ s ∈ l := by
  induction m with
  | nil => exact ⟨[s], by simp [appendDay, lookupMap], by simp⟩
  | cons p rest ih =>
    obtain ⟨k, v⟩ := p
    by_cases hk : k = d
    · subst hk
      by_cases hs : s ∈ v
      · exact ⟨v, by simp [appendDay, lookupMap, hs], hs⟩
      · exact ⟨v ++ [s], by simp [appendDay, lookupMap, hs], by simp⟩
    · obtain ⟨l, hl, hsl⟩ := ih
      exact ⟨l, by simp [appendDay, lookupMap, hk, hl], hsl⟩

/-- The loop body for day `c` does not touch the bucket of any other
day. -/
theorem lookupMap_appendDay_ne (m : EventsMap) (d c : Int) (s : String)
    (h : d ≠ c) : lookupMap (appendDay m c s) d = lookupMap m d := by
  have hcd : ¬ c = d := fun hcd => h hcd.symm
  induction m with
  | nil => simp [appendDay, lookupMap, hcd]
  | cons p rest ih =>
    obtain ⟨k, v⟩ := p
    by_cases hk : k = c
    · subst hk
      simp [appendDay, lookupMap, hcd]
    · simp [appendDay, lookupMap, hk, ih]

/-- Characterization of summary membership after the day loop: `s` is in
the bucket of day `d` after `addDaysGo m s a n` exactly when the loop
visited `d` (i.e. `a ≤ d < a + n`) or `s` was already in the bucket of
`d` in `m`. -/
theorem mem_addDaysGo (s : String) (n : Nat) : ∀ (m : EventsMap) (a d : Int),
    (∃ l, lookupMap (addDaysGo m s a n) d = some l ∧ s ∈ l) ↔
      ((a ≤ d ∧ d < a + (n : Int)) ∨ ∃ l, lookupMap m d = some l ∧ s ∈ l) := by
  induction n with
  | zero =>
    intro m a d
    have hrange : ¬ (a ≤ d ∧ d < a + ((0 : Nat) : Int)) := by omega
    simp only [addDaysGo]
    tauto
  | succ k ih =>
    intro m a d
    simp only [addDaysGo]
    rw [ih (appendDay m a s) (a + 1) d]
    by_cases hd : d = a
    · subst hd
      constructor
      · intro _
        exact Or.inl ⟨le_refl d, by omega⟩
      · intro _
        exact Or.inr (lookupMap_appendDay_self m d s)
    · rw [lookupMap_appendDay_ne m d a s hd]
      constructor
      · rintro (⟨h1, h2⟩ | h)
        · exact Or.inl ⟨by omega, by omega⟩
        · exact Or.inr h
      · rintro (⟨h1, h2⟩ | h)
        · exact Or.inl ⟨by omega, by omega⟩
        · exact Or.inr h

/-- The loop body for day `c` adds at most the key `c` to the map. -/
theorem keys_appendDay (m : EventsMap) (c d : Int) (s : String) :
    d ∈ (appendDay m c s).map Prod.fst ↔ d = c ∨ d ∈ m.map Prod.fst := by
  induction m with
  | nil => simp [appendDay]
  | cons p rest ih =>
    obtain ⟨k, v⟩ := p
    by_cases hk : k = c
    · subst hk
      simp [appendDay]
    · simp [appendDay, hk, ih]
      tauto

/-- The keys present after the day loop are the visited days plus the
keys already present. -/
theorem keys_addDaysGo (s : String) (n : Nat) : ∀ (m : EventsMap) (a d : Int),
    d ∈ (addDaysGo m s a n).map Prod.fst ↔
      ((a ≤ d ∧ d < a + (n : Int)) ∨ d ∈ m.map Prod.fst) := by
  induction n with
  | zero =>
    intro m a d
    have hrange : ¬ (a ≤ d ∧ d < a + ((0 : Nat) : Int)) := by omega
    simp only [addDaysGo]
    tauto
  | succ k ih =>
    intro m a d
    simp only [addDaysGo]
    rw [ih (appendDay m a s) (a + 1) d, keys_appendDay]
    constructor
    · rintro (⟨h1, h2⟩ | hd | h)
      · exact Or.inl ⟨by omega, by omega⟩
      · exact Or.inl ⟨by omega, by omega⟩
      · exact Or.inr h
    · rintro (⟨h1, h2⟩ | h)
      · by_cases hd : d = a
        · exact Or.inr (Or.inl hd)
        · exact Or.inl ⟨by omega, by omega⟩
      · exact Or.inr (Or.inr h)

/-- Every key present after the event loop is either an initial key or a
day covered by one of the processed events. -/
theorem keys_processEvents (evs : List ICalEvent) : ∀ (m m2 : EventsMap),
    processEvents m evs = .ok m2 → ∀ d, d ∈ m2.map Prod.fst →
      d ∈ m.map Prod.fst ∨ ∃ ev ∈ evs, coversDay ev d := by
  induction evs with
  | nil =>
    intro m m2 h d hd
    simp only [processEvents, Except.ok.injEq] at h
    subst h
    exact Or.inl hd
  | cons ev rest ih =>
    intro m m2 h d hd
    simp only [processEvents] at h
    cases hpe : processEvent m ev with
    | error msg => rw [hpe] at h; cases h
    | ok m1 =>
      rw [hpe] at h
      rcases ih m1 m2 h d hd with hm1 | ⟨ev2, hev2, hcov⟩
      · unfold processEvent at hpe
        cases hds : ev.dtstart with
        | none => rw [hds] at hpe; cases hpe
        | some dv =>
          rw [hds] at hpe
          simp only [Except.ok.injEq] at hpe
          rw [← hpe] at hm1
          unfold addDays at hm1
          rw [keys_addDaysGo] at hm1
          rcases hm1 with ⟨h1, h2⟩ | hm
          · refine Or.inr ⟨ev, List.mem_cons_self ev rest, dv, hds, h1, ?_⟩
            omega
          · exact Or.inl hm
      · exact Or.inr ⟨ev2, List.mem_cons_of_mem ev hev2, hcov⟩

/-- Appending a summary that day `d`'s bucket already holds leaves the
map unchanged (the `if summary not in ...` guard of src/app.py
line 83). -/
theorem appendDay_mem_noop (m : EventsMap) (d : Int) (s : String)
    (l : List String) (h1 : lookupMap m d = some l) (h2 : s ∈ l) :
    appendDay m d s = m := by
  induction m with
  | nil => simp [lookupMap] at h1
  | cons p rest ih =>
    obtain ⟨k, v⟩ := p
    by_cases hk : k = d
    · subst hk
      simp [lookupMap] at h1
      subst h1
      simp [appendDay, h2]
    · simp only [lookupMap, if_neg hk] at h1
      simp [appendDay, hk, ih h1]

/-- Running the day loop a second time over its own output changes
nothing: every visited bucket already holds the summary. -/
theorem addDaysGo_idem (s : String) (n : Nat) : ∀ (m : EventsMap) (a : Int),
    addDaysGo (addDaysGo m s a n) s a n = addDaysGo m s a n := by
  induction n with
  | zero => intro m a; rfl
  | succ k ih =>
    intro m a
    simp only [addDaysGo]
    have hmem : ∃ l,
        lookupMap (addDaysGo (appendDay m a s) s (a + 1) k) a = some l ∧
          s ∈ l := by
      rw [mem_addDaysGo]
      exact Or.inr (lookupMap_appendDay_self m a s)
    obtain ⟨l, hl, hsl⟩ := hmem
    rw [appendDay_mem_noop _ a s l hl hsl]
    exact ih _ (a + 1)

/-- `addDays` is idempotent. -/
theorem addDays_idem (m : EventsMap) (s : String) (a e : Int) :
    addDays (addDays m s a e) s a e = addDays m s a e :=
  addDaysGo_idem s (e - a).toNat m a

/-! ### Calendar-side claims -/

/-- C3: for every processed event occurrence, the end date defaults to
start + 1 day when no explicit end is given; when the resolved start
equals the resolved end the end is forced to start + 1 day; and the
summary lands in the bucket of exactly the whole days `d` with
`start ≤ d < end` (the end day itself excluded). -/
theorem event_day_expansion (ev : ICalEvent) (dv : DtVal)
    (h : ev.dtstart = some dv) :
    (ev.dtend = none → eventEnd ev dv.toDate = dv.toDate + 1) ∧
    (eventEnd ev dv.toDate = dv.toDate →
      effectiveEnd dv.toDate (eventEnd ev dv.toDate) = dv.toDate + 1) ∧
    ∃ m, processEvent [] ev = .ok m ∧
      ∀ d : Int, (∃ l, lookupMap m d = some l ∧ summaryStr ev ∈ l) ↔
        (dv.toDate ≤ d ∧ d < effectiveEnd dv.toDate (eventEnd ev dv.toDate)) := by
  refine ⟨?_, ?_, ?_⟩
  · intro he
    simp [eventEnd, he]
  · intro heq
    simp [effectiveEnd, heq]
  · refine ⟨addDays [] (summaryStr ev) dv.toDate
      (effectiveEnd dv.toDate (eventEnd ev dv.toDate)), ?_, ?_⟩
    · simp [processEvent, h]
    · intro d
      unfold addDays
      rw [mem_addDaysGo]
      have hempty : lookupMap [] d = none := rfl
      have heff : dv.toDate < effectiveEnd dv.toDate (eventEnd ev dv.toDate) ∨
          effectiveEnd dv.toDate (eventEnd ev dv.toDate) ≤ dv.toDate := by omega
      constructor
      · rintro (⟨h1, h2⟩ | ⟨l, hl, _⟩)
        · refine ⟨h1, by omega⟩
        · rw [hempty] at hl; cases hl
      · rintro ⟨h1, h2⟩
        exact Or.inl ⟨h1, by omega⟩

/-- C3 witness: the event spanning `[2024-01-10, 2024-01-13)` (days
20240110 to 20240113 in the integer day encoding) covers exactly
2024-01-10, 2024-01-11 and 2024-01-12. -/
theorem event_day_expansion_witness :
    ∃ m, processEvent []
        (⟨some "Conf", some (DtVal.dateonly 20240110),
          some (DtVal.dateonly 20240113)⟩ : ICalEvent) = .ok m ∧
      ∀ d : Int, (∃ l, lookupMap m d = some l ∧ "Conf" ∈ l) ↔
        ((20240110 : Int) ≤ d ∧ d < 20240113) := by
  have h := (event_day_expansion
    ⟨some "Conf", some (DtVal.dateonly 20240110), some (DtVal.dateonly 20240113)⟩
    (DtVal.dateonly 20240110) rfl).2.2
  simpa [summaryStr, eventEnd, effectiveEnd, DtVal.toDate] using h

/-- C4: for every day bucket, if some summary case-insensitively
contains `"al ref"` the display text joins only the matching summaries
with `"; "`, otherwise it joins all summaries. -/
theorem al_ref_priority_filter (m : EventsMap) (k : Int) (v : List String)
    (h : (k, v) ∈ m) :
    ((∃ s ∈ v, alRefMatch s = true) →
      (k, String.intercalate "; " (v.filter alRefMatch)) ∈ finalMap m) ∧
    ((∀ s ∈ v, alRefMatch s = false) →
      (k, String.intercalate "; " v) ∈ finalMap m) := by
  have hmem : (k, bucketText v) ∈ finalMap m := by
    have := List.mem_map_of_mem (fun p : Int × List String => (p.1, bucketText p.2)) h
    simpa [finalMap] using this
  constructor
  · rintro ⟨s, hs, hmatch⟩
    have hfe : (v.filter alRefMatch).isEmpty = false := by
      have : s ∈ v.filter alRefMatch := List.mem_filter.mpr ⟨hs, hmatch⟩
      cases hfil : v.filter alRefMatch with
      | nil => rw [hfil] at this; cases this
      | cons a l => simp [hfil]
    have hbt : bucketText v = String.intercalate "; " (v.filter alRefMatch) := by
      simp [bucketText, hfe]
    rw [hbt] at hmem
    exact hmem
  · intro hall
    have hfil : v.filter alRefMatch = [] :=
      List.filter_eq_nil_iff.mpr fun a ha => by simp [hall a ha]
    have hbt : bucketText v = String.intercalate "; " v := by
      simp [bucketText, hfil]
    rw [hbt] at hmem
    exact hmem

/-- C4 witness: on a day with an `"AL Ref"` summary only the matching
summaries display; on a day without one, all summaries display. -/
theorem al_ref_priority_filter_witness :
    ((1 : Int), String.intercalate "; "
        (["Team AL Ref", "Dentist"].filter alRefMatch)) ∈
      finalMap [((1 : Int), ["Team AL Ref", "Dentist"]), (2, ["Gym", "Lunch"])] ∧
    ((2 : Int), String.intercalate "; " ["Gym", "Lunch"]) ∈
      finalMap [((1 : Int), ["Team AL Ref", "Dentist"]), (2, ["Gym", "Lunch"])] := by
  constructor
  · exact (al_ref_priority_filter _ 1 ["Team AL Ref", "Dentist"] (by decide)).1
      ⟨"Team AL Ref", by decide, by decide⟩
  · exact (al_ref_priority_filter _ 2 ["Gym", "Lunch"] (by decide)).2
      (by decide)

/-- C7: reconciliation never raises: an empty feed URL yields the empty
map immediately, a fetch or parse error yields the empty map, and an
error while processing events (for example an event lacking `DTSTART`)
also yields the empty map rather than a partially filled one. -/
theorem reconcile_fails_gracefully (url : String)
    (feed : Except String (List ICalEvent)) (ws we : Int) :
    (url = "" → fetch_google_events url feed ws we = []) ∧
    (∀ msg, feed = .error msg → fetch_google_events url feed ws we = []) ∧
    (∀ cal msg, feed = .ok cal →
      processEvents [] (betweenWindow cal ws we) = .error msg →
      fetch_google_events url feed ws we = []) := by
  refine ⟨?_, ?_, ?_⟩
  · intro hurl
    simp [fetch_google_events, hurl]
  · intro msg hfeed
    by_cases hurl : url = ""
    · simp [fetch_google_events, hurl]
    · simp [fetch_google_events, hurl, hfeed]
  · intro cal msg hfeed hproc
    by_cases hurl : url = ""
    · simp [fetch_google_events, hurl]
    · simp [fetch_google_events, hurl, hfeed, hproc]

/-- C7 witness: empty URL, failed fetch, and an event lacking `DTSTART`
each yield the empty map. -/
theorem reconcile_fails_gracefully_witness :
    fetch_google_events "" (.ok []) 0 10 = [] ∧
    fetch_google_events "u" (.error "HTTP 404") 0 10 = [] ∧
    fetch_google_events "u"
      (.ok [⟨some "A", none, none⟩, ⟨some "B", some (DtVal.dateonly 3), none⟩])
      0 10 = [] := by
  refine ⟨?_, ?_, ?_⟩
  · exact (reconcile_fails_gracefully "" (.ok []) 0 10).1 rfl
  · exact (reconcile_fails_gracefully "u" (.error "HTTP 404") 0 10).2.1 "HTTP 404" rfl
  · exact (reconcile_fails_gracefully "u" _ 0 10).2.2
      [⟨some "A", none, none⟩, ⟨some "B", some (DtVal.dateonly 3), none⟩]
      "AttributeError: NoneType object has no attribute dt" rfl rfl

/-- C9: de-duplication is by exact string equality: appending a summary
already present in a day's bucket leaves the map unchanged, and
consequently re-processing an event over a map that already absorbed it
changes nothing. -/
theorem duplicate_summary_dedup (m m2 : EventsMap) (d : Int) (s : String)
    (l : List String) (ev : ICalEvent) :
    (lookupMap m d = some l → s ∈ l → appendDay m d s = m) ∧
    (processEvent m ev = .ok m2 → processEvent m2 ev = .ok m2) := by
  constructor
  · intro h1 h2
    exact appendDay_mem_noop m d s l h1 h2
  · intro h
    cases hds : ev.dtstart with
    | none => simp [processEvent, hds] at h
    | some dv =>
      simp only [processEvent, hds, Except.ok.injEq] at h ⊢
      rw [← h]
      exact addDays_idem _ _ _ _

/-- C9 witness: a concrete duplicate append is a no-op, and
re-processing a concrete event is a no-op. -/
theorem duplicate_summary_dedup_witness :
    appendDay [((5 : Int), ["Standup", "Lunch"])] 5 "Standup"
      = [((5 : Int), ["Standup", "Lunch"])] ∧
    processEvent [((3 : Int), ["B"])]
      (⟨some "B", some (DtVal.dateonly 3), none⟩ : ICalEvent)
      = .ok [((3 : Int), ["B"])] := by
  constructor
  · exact (duplicate_summary_dedup [((5 : Int), ["Standup", "Lunch"])]
      [] 5 "Standup" ["Standup", "Lunch"] ⟨none, none, none⟩).1 rfl (by decide)
  · exact (duplicate_summary_dedup [((3 : Int), ["B"])] [((3 : Int), ["B"])] 0 "" []
      ⟨some "B", some (DtVal.dateonly 3), none⟩).2 rfl

/-- C10: an event without a `SUMMARY` field gets the default summary
text `"Busy"`, and every day it covers gets `"Busy"` in its bucket, so
the event still appears in the day summary map. -/
theorem missing_summary_defaults_busy (ev : ICalEvent) (dv : DtVal)
    (hs : ev.summary = none) (hd : ev.dtstart = some dv) :
    summaryStr ev = "Busy" ∧
    ∃ m, processEvent [] ev = .ok m ∧
      ∀ d : Int, dv.toDate ≤ d →
        d < effectiveEnd dv.toDate (eventEnd ev dv.toDate) →
        ∃ l, lookupMap m d = some l ∧ "Busy" ∈ l := by
  have hbusy : summaryStr ev = "Busy" := by simp [summaryStr, hs]
  refine ⟨hbusy, addDays [] (summaryStr ev) dv.toDate
    (effectiveEnd dv.toDate (eventEnd ev dv.toDate)), ?_, ?_⟩
  · simp [processEvent, hd]
  · intro d h1 h2
    rw [← hbusy]
    unfold addDays
    rw [mem_addDaysGo]
    exact Or.inl ⟨h1, by omega⟩

/-- C10 witness: a concrete summary-less one-day event produces a
`"Busy"` bucket on its covered day. -/
theorem missing_summary_defaults_busy_witness :
    summaryStr (⟨none, some (DtVal.datetime 5), some (DtVal.datetime 5)⟩ : ICalEvent)
      = "Busy" ∧
    ∃ m, processEvent []
        (⟨none, some (DtVal.datetime 5), some (DtVal.datetime 5)⟩ : ICalEvent)
      = .ok m ∧ ∃ l, lookupMap m 5 = some l ∧ "Busy" ∈ l := by
  have h := missing_summary_defaults_busy
    ⟨none, some (DtVal.datetime 5), some (DtVal.datetime 5)⟩
    (DtVal.datetime 5) rfl rfl
  obtain ⟨h1, m, h2, h3⟩ := h
  exact ⟨h1, m, h2, h3 5 (by decide) (by decide)⟩

/-- C6 counterexample: with the window `[10, 12]`, a single occurrence
spanning days `[8, 15)` overlaps the window, so the expansion returns it
(the recurrence library returns occurrences within or overlapping the
period); the day loop then emits the key 8, which lies outside
`[10, 12]` — refuting the claim that every key of the returned map lies
within `[start_date, end_date]`. -/
theorem window_bound_counterexample :
    ((8 : Int), "X") ∈ fetch_google_events "u"
      (.ok [⟨some "X", some (DtVal.dateonly 8), some (DtVal.dateonly 15)⟩])
      10 12 ∧
    ¬ ((10 : Int) ≤ 8 ∧ (8 : Int) ≤ 12) := by
  decide

/-- C6 amended: every date key of the returned map is a day covered by
some expanded occurrence, and every such occurrence intersects the query
window; keys outside `[start_date, end_date]` occur exactly when such an
occurrence's multi-day span continues past the window boundary. -/
theorem reconciled_keys_covered (url : String) (cal : List ICalEvent)
    (ws we : Int) (d : Int)
    (h : d ∈ (fetch_google_events url (.ok cal) ws we).map Prod.fst) :
    ∃ ev ∈ cal, eventIntersectsWindow ev ws we = true ∧ coversDay ev d := by
  by_cases hurl : url = ""
  · simp [fetch_google_events, hurl] at h
  · simp only [fetch_google_events, if_neg hurl] at h
    cases hproc : processEvents [] (betweenWindow cal ws we) with
    | error msg => rw [hproc] at h; simp at h
    | ok m =>
      rw [hproc] at h
      have hkeys : (finalMap m).map Prod.fst = m.map Prod.fst := by
        simp [finalMap]
      rw [hkeys] at h
      rcases keys_processEvents (betweenWindow cal ws we) [] m hproc d h with
        hnil | ⟨ev, hev, hcov⟩
      · cases hnil
      · have := List.mem_filter.mp hev
        exact ⟨ev, this.1, this.2, hcov⟩

/-- C6 amended witness: the key 8 of the counterexample map is indeed a
covered day of the overlapping occurrence `[8, 15)`. -/
theorem reconciled_keys_covered_witness :
    ∃ ev ∈ [(⟨some "X", some (DtVal.dateonly 8), some (DtVal.dateonly 15)⟩ :
        ICalEvent)],
      eventIntersectsWindow ev 10 12 = true ∧ coversDay ev 8 := by
  exact reconciled_keys_covered "u"
    [⟨some "X", some (DtVal.dateonly 8), some (DtVal.dateonly 15)⟩]
    10 12 8 (by decide)

/-! ### Helper lemmas about the roster scan -/

/-- `anchorCellAt` only ever reports its own column index. -/
theorem anchorCellAt_fst (row : List Cell) (i : Nat) (p : Nat × Int)
    (h : anchorCellAt row i = some p) : p.1 = i := by
  unfold anchorCellAt at h
  split at h
  · split at h
    · cases h
      rfl
    · cases h
  · cases h

/-- Membership in the rebuilt block: exactly the date-typed cells at
column indices `≥ 2`. -/
theorem anchorBlock_mem (row : List Cell) (i : Nat) (d : Int) :
    (i, d) ∈ anchorBlock row ↔ 2 ≤ i ∧ row[i]? = some (Cell.date d) := by
  unfold anchorBlock
  rw [List.mem_filterMap]
  constructor
  · rintro ⟨j, _, hf⟩
    have hj : j = i := by
      have := anchorCellAt_fst row j (i, d) hf
      simpa using this.symm
    subst hj
    unfold anchorCellAt at hf
    split at hf
    case isTrue h2 =>
      split at hf
      case _ dd heq =>
        cases hf
        exact ⟨h2, heq⟩
      case _ => cases hf
    case isFalse h2 => cases hf
  · rintro ⟨h2, hcell⟩
    have hlen : i < row.length := (List.getElem?_eq_some.mp hcell).1
    refine ⟨i, List.mem_range.mpr hlen, ?_⟩
    unfold anchorCellAt
    rw [if_pos h2, hcell]

/-- The column indices of the rebuilt block are strictly increasing (the
source fills the dict by iterating `range(2, len(row))`). -/
theorem anchorBlock_fst_pairwise (row : List Cell) :
    ((anchorBlock row).map Prod.fst).Pairwise (· < ·) := by
  have hsub : ((anchorBlock row).map Prod.fst).Sublist
      (List.range row.length) := by
    unfold anchorBlock
    generalize List.range row.length = l
    induction l with
    | nil => simp
    | cons a l ih =>
      rw [List.filterMap_cons]
      cases hf : anchorCellAt row a with
      | none => exact (ih).cons a
      | some p =>
        rw [List.map_cons]
        have := anchorCellAt_fst row a p hf
        rw [this]
        exact ih.cons₂ a
  exact (List.pairwise_lt_range row.length).sublist hsub

/-- An entry produced from a block pair carries that pair's date. -/
theorem entryOf_date (row : List Cell) (p : Nat × Int) (e : LeaveEntry)
    (h : entryOf row p = some e) : e.date = p.2 := by
  unfold entryOf at h
  split at h
  · cases h
  · dsimp only at h
    split at h
    · cases h
      rfl
    · cases h

/-- The dates of a row's entries are, in order, a sublist of the block's
dates. -/
theorem rowEntries_dates_sublist (block : List (Nat × Int)) (row : List Cell) :
    ((rowEntries block row).map LeaveEntry.date).Sublist
      (block.map Prod.snd) := by
  unfold rowEntries
  induction block with
  | nil => simp
  | cons p bs ih =>
    rw [List.filterMap_cons]
    cases hf : entryOf row p with
    | none => exact ih.cons p.2
    | some e =>
      rw [List.map_cons, List.map_cons, entryOf_date row p e hf]
      exact ih.cons₂ p.2

/-- Every entry a row contributes has the date of some pair of the
active block. -/
theorem rowEntries_date_mem (block : List (Nat × Int)) (row : List Cell)
    (e : LeaveEntry) (he : e ∈ rowEntries block row) :
    e.date ∈ block.map Prod.snd := by
  unfold rowEntries at he
  rw [List.mem_filterMap] at he
  obtain ⟨p, hp, hf⟩ := he
  exact List.mem_map.mpr ⟨p, hp, (entryOf_date row p e hf).symm⟩

/-- A row whose column-2 cell is date-typed resets the block and
contributes nothing (the `continue` of src/app.py line 130). -/
theorem extractLoop_anchor_step (row : List Cell) (rest : List (List Cell))
    (block : List (Nat × Int)) (t : String) (d0 : Int)
    (h : row[2]? = some (Cell.date d0)) :
    extractLoop (row :: rest) block t = extractLoop rest (anchorBlock row) t := by
  have hlen : 2 < row.length := (List.getElem?_eq_some.mp h).1
  have h3 : ¬ row.length < 3 := by omega
  have hdc : isDateCell (row[2]?.getD Cell.na) = true := by
    rw [h]
    rfl
  simp only [extractLoop]
  rw [if_neg h3, if_pos hdc]

/-- A row is an anchor exactly when its column-2 cell exists and is
date-typed. -/
theorem isAnchorRow_iff (row : List Cell) :
    isAnchorRow row = true ↔ ∃ d, row[2]? = some (Cell.date d) := by
  cases h : row[2]? with
  | none => simp [isAnchorRow, h, isDateCell]
  | some c => cases c <;> simp [isAnchorRow, h, isDateCell]

/-- Over a run of non-anchor rows every produced entry draws its date
from the block in force at the start of the run. -/
theorem extractLoop_dates_from_block (t : String) (rows : List (List Cell)) :
    ∀ (block : List (Nat × Int)) (e : LeaveEntry),
      (∀ r ∈ rows, isAnchorRow r = false) →
      e ∈ extractLoop rows block t → e.date ∈ block.map Prod.snd := by
  induction rows with
  | nil =>
    intro block e _ he
    cases he
  | cons row rest ih =>
    intro block e hall he
    have hrow : isAnchorRow row = false := hall row (List.mem_cons_self row rest)
    have hrest : ∀ r ∈ rest, isAnchorRow r = false :=
      fun r hr => hall r (List.mem_cons_of_mem row hr)
    have hdc : ¬ isDateCell (row[2]?.getD Cell.na) = true := by
      rw [show isDateCell (row[2]?.getD Cell.na) = isAnchorRow row from rfl, hrow]
      simp
    simp only [extractLoop] at he
    by_cases h3 : row.length < 3
    · rw [if_pos h3] at he
      exact ih block e hrest he
    · rw [if_neg h3, if_neg hdc] at he
      by_cases hm : (!block.isEmpty && nameMatches (row[1]?.getD Cell.na) t) = true
      · rw [if_pos hm] at he
        rcases List.mem_append.mp he with h1 | h2
        · exact rowEntries_date_mem block row e h1
        · exact ih block e hrest h2
      · rw [if_neg hm] at he
        exact ih block e hrest he

/-- With no anchor row in sight and an empty block in force, the scan
produces nothing. -/
theorem extractLoop_no_anchor_nil (t : String) (rows : List (List Cell))
    (hall : ∀ r ∈ rows, isAnchorRow r = false) :
    extractLoop rows [] t = [] := by
  induction rows with
  | nil => rfl
  | cons row rest ih =>
    have hrow : isAnchorRow row = false := hall row (List.mem_cons_self row rest)
    have hrest : ∀ r ∈ rest, isAnchorRow r = false :=
      fun r hr => hall r (List.mem_cons_of_mem row hr)
    have hdc : ¬ isDateCell (row[2]?.getD Cell.na) = true := by
      rw [show isDateCell (row[2]?.getD Cell.na) = isAnchorRow row from rfl, hrow]
      simp
    simp only [extractLoop]
    by_cases h3 : row.length < 3
    · rw [if_pos h3]
      exact ih hrest
    · rw [if_neg h3, if_neg hdc]
      rw [if_neg (by simp)]
      exact ih hrest

/-- An anchor-free prefix scanned with the empty block in force
contributes no entries and leaves the empty block in place, whatever
follows it (in particular the remainder may contain anchor rows). -/
theorem extractLoop_prefix_no_anchor (t : String) (pre : List (List Cell)) :
    ∀ rest, (∀ r ∈ pre, isAnchorRow r = false) →
      extractLoop (pre ++ rest) [] t = extractLoop rest [] t := by
  induction pre with
  | nil => intro rest _; rfl
  | cons row pr ih =>
    intro rest hall
    have hrow : isAnchorRow row = false := hall row (List.mem_cons_self row pr)
    have hpr : ∀ r ∈ pr, isAnchorRow r = false :=
      fun r hr => hall r (List.mem_cons_of_mem row hr)
    have hdc : ¬ isDateCell (row[2]?.getD Cell.na) = true := by
      rw [show isDateCell (row[2]?.getD Cell.na) = isAnchorRow row from rfl, hrow]
      simp
    rw [List.cons_append]
    simp only [extractLoop]
    by_cases h3 : row.length < 3
    · rw [if_pos h3]
      exact ih rest hpr
    · rw [if_neg h3, if_neg hdc, if_neg (by simp)]
      exact ih rest hpr

/-- Provenance of an entry: every entry produced by the scan is emitted
by some non-anchor row of the grid, from the block in force when that
row is reached (`blockAfter` over the rows preceding it). -/
theorem extractLoop_entry_provenance (t : String) (rows : List (List Cell)) :
    ∀ (block : List (Nat × Int)) (e : LeaveEntry),
      e ∈ extractLoop rows block t →
      ∃ pre row rest, rows = pre ++ row :: rest ∧ isAnchorRow row = false ∧
        e ∈ rowEntries (blockAfter block pre) row := by
  induction rows with
  | nil =>
    intro block e he
    cases he
  | cons row rest ih =>
    intro block e he
    simp only [extractLoop] at he
    by_cases h3 : row.length < 3
    · rw [if_pos h3] at he
      obtain ⟨pre, r2, rest2, hdec, hr2, hmem⟩ := ih block e he
      refine ⟨row :: pre, r2, rest2, by rw [hdec]; rfl, hr2, ?_⟩
      have hba : blockAfter block (row :: pre) = blockAfter block pre := by
        simp only [blockAfter]
        rw [if_pos h3]
      rw [hba]
      exact hmem
    · rw [if_neg h3] at he
      by_cases hdc : isDateCell (row[2]?.getD Cell.na) = true
      · rw [if_pos hdc] at he
        obtain ⟨pre, r2, rest2, hdec, hr2, hmem⟩ := ih (anchorBlock row) e he
        refine ⟨row :: pre, r2, rest2, by rw [hdec]; rfl, hr2, ?_⟩
        have hba : blockAfter block (row :: pre)
            = blockAfter (anchorBlock row) pre := by
          simp only [blockAfter]
          rw [if_neg h3, if_pos hdc]
        rw [hba]
        exact hmem
      · rw [if_neg hdc] at he
        have hrow : isAnchorRow row = false := Bool.eq_false_iff.mpr hdc
        have hba : ∀ pre, blockAfter block (row :: pre) = blockAfter block pre := by
          intro pre
          simp only [blockAfter]
          rw [if_neg h3, if_neg hdc]
        by_cases hm : (!block.isEmpty && nameMatches (row[1]?.getD Cell.na) t) = true
        · rw [if_pos hm] at he
          rcases List.mem_append.mp he with h1 | h2
          · exact ⟨[], row, rest, rfl, hrow, h1⟩
          · obtain ⟨pre, r2, rest2, hdec, hr2, hmem⟩ := ih block e h2
            exact ⟨row :: pre, r2, rest2, by rw [hdec]; rfl, hr2,
              by rw [hba pre]; exact hmem⟩
        · rw [if_neg hm] at he
          obtain ⟨pre, r2, rest2, hdec, hr2, hmem⟩ := ih block e he
          exact ⟨row :: pre, r2, rest2, by rw [hdec]; rfl, hr2,
            by rw [hba pre]; exact hmem⟩

/-- The block in force after scanning any run of rows is either the
`anchorBlock` of the last anchor row of the run (no anchor follows it
within the run), or — when the run has no anchor row at all — the block
the run started with. -/
theorem blockAfter_last_anchor (pre : List (List Cell)) :
    ∀ (block : List (Nat × Int)),
      (∃ p1 a p2, pre = p1 ++ a :: p2 ∧ isAnchorRow a = true ∧
        (∀ r ∈ p2, isAnchorRow r = false) ∧
        blockAfter block pre = anchorBlock a) ∨
      ((∀ r ∈ pre, isAnchorRow r = false) ∧ blockAfter block pre = block) := by
  induction pre with
  | nil =>
    intro block
    exact Or.inr ⟨by simp, rfl⟩
  | cons row pr ih =>
    intro block
    by_cases hanch : isAnchorRow row = true
    · have hdc : isDateCell (row[2]?.getD Cell.na) = true := hanch
      have hlen : ¬ row.length < 3 := by
        obtain ⟨d, hd⟩ := (isAnchorRow_iff row).mp hanch
        have := (List.getElem?_eq_some.mp hd).1
        omega
      have hstep : blockAfter block (row :: pr)
          = blockAfter (anchorBlock row) pr := by
        simp only [blockAfter]
        rw [if_neg hlen, if_pos hdc]
      rcases ih (anchorBlock row) with ⟨p1, a, p2, hdec, ha, hfree, hba⟩ |
        ⟨hfree, hba⟩
      · exact Or.inl ⟨row :: p1, a, p2, by rw [hdec]; rfl, ha, hfree,
          by rw [hstep, hba]⟩
      · exact Or.inl ⟨[], row, pr, rfl, hanch, hfree, by rw [hstep, hba]⟩
    · have hrow : isAnchorRow row = false := Bool.eq_false_iff.mpr hanch
      have hdc : ¬ isDateCell (row[2]?.getD Cell.na) = true := hanch
      have hstep : blockAfter block (row :: pr) = blockAfter block pr := by
        simp only [blockAfter]
        by_cases h3 : row.length < 3
        · rw [if_pos h3]
        · rw [if_neg h3, if_neg hdc]
      rcases ih block with ⟨p1, a, p2, hdec, ha, hfree, hba⟩ | ⟨hfree, hba⟩
      · exact Or.inl ⟨row :: p1, a, p2, by rw [hdec]; rfl, ha, hfree,
          by rw [hstep, hba]⟩
      · refine Or.inr ⟨?_, by rw [hstep, hba]⟩
        intro r hr
        rcases List.mem_cons.mp hr with hre | hr2
        · rw [hre]
          exact hrow
        · exact hfree r hr2

/-! ### Roster-side claims -/

/-- C2: for every grid and target name: an anchor row resets the active
block to exactly the date-typed cells at column indices `≥ 2` and
contributes no entries itself; any anchor-free prefix scanned with the
empty block in force contributes nothing (so rows before the first
anchor row of any grid produce no entries); and every entry produced by
the extractor is emitted by a non-anchor row from the block of the most
recently seen anchor row — an anchor row `a` with no further anchor row
between `a` and the emitting row. -/
theorem anchor_block_invariants (row : List Cell) (rest : List (List Cell))
    (pre rows : List (List Cell)) (block : List (Nat × Int)) (t : String)
    (d0 : Int) (e : LeaveEntry) :
    (row[2]? = some (Cell.date d0) →
      extractLoop (row :: rest) block t = extractLoop rest (anchorBlock row) t) ∧
    (∀ i d, (i, d) ∈ anchorBlock row ↔ 2 ≤ i ∧ row[i]? = some (Cell.date d)) ∧
    ((∀ r ∈ pre, isAnchorRow r = false) →
      extractLoop (pre ++ rows) [] t = extractLoop rows [] t) ∧
    (e ∈ extract_holidays rows t →
      ∃ p1 a mid row2 rest2, rows = p1 ++ a :: (mid ++ row2 :: rest2) ∧
        isAnchorRow a = true ∧ (∀ r ∈ mid, isAnchorRow r = false) ∧
        isAnchorRow row2 = false ∧ e ∈ rowEntries (anchorBlock a) row2 ∧
        e.date ∈ (anchorBlock a).map Prod.snd) := by
  refine ⟨?_, ?_, ?_, ?_⟩
  · intro h
    exact extractLoop_anchor_step row rest block t d0 h
  · intro i d
    exact anchorBlock_mem row i d
  · intro hall
    exact extractLoop_prefix_no_anchor t pre rows hall
  · intro he
    obtain ⟨pr, row2, rest2, hdec, hrow2, hmem⟩ :=
      extractLoop_entry_provenance t rows [] e he
    rcases blockAfter_last_anchor pr [] with
      ⟨p1, a, p2, hpre, ha, hfree, hba⟩ | ⟨_, hba⟩
    · rw [hba] at hmem
      refine ⟨p1, a, p2, row2, rest2, ?_, ha, hfree, hrow2, hmem,
        rowEntries_date_mem (anchorBlock a) row2 e hmem⟩
      rw [hdec, hpre]
      simp [List.append_assoc]
    · rw [hba] at hmem
      exact absurd hmem (by simp [rowEntries])

/-- C2 witness, on a grid with two anchor rows: the anchor step equation
holds concretely, the rebuilt block is characterized, an anchor-free
prefix in front of the two-anchor grid contributes nothing, and the
entry `{5, "AL", "AL"}` is traced to the second (most recent) anchor
row. -/
theorem anchor_block_invariants_witness :
    (extractLoop [[Cell.na, Cell.na, Cell.date 5], [Cell.text "x", Cell.text "y", Cell.text "z"]]
        [(7, 9)] "A"
      = extractLoop [[Cell.text "x", Cell.text "y", Cell.text "z"]]
        (anchorBlock [Cell.na, Cell.na, Cell.date 5]) "A") ∧
    ((2, 5) ∈ anchorBlock [Cell.na, Cell.na, Cell.date 5] ↔
      2 ≤ 2 ∧ [Cell.na, Cell.na, Cell.date 5][2]? = some (Cell.date 5)) ∧
    (extractLoop
        ([[Cell.text "q", Cell.text "q", Cell.text "q"]] ++
          [[Cell.na, Cell.na, Cell.date 1],
           [Cell.text "", Cell.text "A", Cell.text "SL"],
           [Cell.na, Cell.na, Cell.date 5],
           [Cell.text "", Cell.text "A", Cell.text "AL"]]) [] "A"
      = extractLoop
          [[Cell.na, Cell.na, Cell.date 1],
           [Cell.text "", Cell.text "A", Cell.text "SL"],
           [Cell.na, Cell.na, Cell.date 5],
           [Cell.text "", Cell.text "A", Cell.text "AL"]] [] "A") ∧
    (∃ p1 a mid row2 rest2,
      ([[Cell.na, Cell.na, Cell.date 1],
        [Cell.text "", Cell.text "A", Cell.text "SL"],
        [Cell.na, Cell.na, Cell.date 5],
        [Cell.text "", Cell.text "A", Cell.text "AL"]] : List (List Cell))
        = p1 ++ a :: (mid ++ row2 :: rest2) ∧
      isAnchorRow a = true ∧ (∀ r ∈ mid, isAnchorRow r = false) ∧
      isAnchorRow row2 = false ∧
      (⟨5, "AL", "AL"⟩ : LeaveEntry) ∈ rowEntries (anchorBlock a) row2 ∧
      (⟨5, "AL", "AL"⟩ : LeaveEntry).date ∈ (anchorBlock a).map Prod.snd) := by
  have h := anchor_block_invariants [Cell.na, Cell.na, Cell.date 5]
    [[Cell.text "x", Cell.text "y", Cell.text "z"]]
    [[Cell.text "q", Cell.text "q", Cell.text "q"]]
    [[Cell.na, Cell.na, Cell.date 1],
     [Cell.text "", Cell.text "A", Cell.text "SL"],
     [Cell.na, Cell.na, Cell.date 5],
     [Cell.text "", Cell.text "A", Cell.text "AL"]]
    [(7, 9)] "A" 5 ⟨5, "AL", "AL"⟩
  exact ⟨h.1 rfl, h.2.1 2 5, h.2.2.1 (by decide), h.2.2.2 (by decide)⟩

/-- C5 counterexample: an anchor row listing its dates in descending
column order (`date 20240102` at column 2, `date 20240101` at column 3)
makes the extractor return the dates in that same order, so the returned
sequence is not sorted by date ascending. -/
theorem extract_sorted_counterexample :
    ((extract_holidays
        [[Cell.na, Cell.na, Cell.date 20240102, Cell.date 20240101],
         [Cell.text "", Cell.text "A", Cell.text "AL", Cell.text "SL"]]
        "A").map LeaveEntry.date = [20240102, 20240101]) ∧
    ¬ List.Sorted (· ≤ ·)
      ((extract_holidays
        [[Cell.na, Cell.na, Cell.date 20240102, Cell.date 20240101],
         [Cell.text "", Cell.text "A", Cell.text "AL", Cell.text "SL"]]
        "A").map LeaveEntry.date) := by
  constructor
  · decide
  · decide

/-- C5 amended: the extractor returns entries in insertion order — row
order through the grid, and within one matching row the ascending column
order of the active block — so its dates are sorted ascending only when
the block's dates ascend with column index (the caller, out of scope
here, re-sorts by date before display). -/
theorem extract_insertion_order (row : List Cell) (rest : List (List Cell))
    (block : List (Nat × Int)) (t : String) :
    (¬ row.length < 3 → isAnchorRow row = false →
      (!block.isEmpty && nameMatches (row[1]?.getD Cell.na) t) = true →
      extractLoop (row :: rest) block t
        = rowEntries block row ++ extractLoop rest block t) ∧
    ((anchorBlock row).map Prod.fst).Pairwise (· < ·) ∧
    ((block.map Prod.snd).Pairwise (· ≤ ·) →
      ((rowEntries block row).map LeaveEntry.date).Pairwise (· ≤ ·)) := by
  refine ⟨?_, anchorBlock_fst_pairwise row, ?_⟩
  · intro h3 hrow hm
    have hdc : ¬ isDateCell (row[2]?.getD Cell.na) = true := by
      rw [show isDateCell (row[2]?.getD Cell.na) = isAnchorRow row from rfl, hrow]
      simp
    simp only [extractLoop]
    rw [if_neg h3, if_neg hdc, if_pos hm]
  · intro hsorted
    exact hsorted.sublist (rowEntries_dates_sublist block row)

/-- C5 amended witness: a matching row emits its entries before the rest
of the scan, block columns ascend, and an ascending block yields
ascending entry dates. -/
theorem extract_insertion_order_witness :
    (extractLoop [[Cell.na, Cell.text "A", Cell.text "AL", Cell.text "SL"]]
        [(2, 1), (3, 2)] "A"
      = rowEntries [(2, 1), (3, 2)]
          [Cell.na, Cell.text "A", Cell.text "AL", Cell.text "SL"]
        ++ extractLoop [] [(2, 1), (3, 2)] "A") ∧
    ((anchorBlock [Cell.na, Cell.text "A", Cell.text "AL", Cell.text "SL"]).map
      Prod.fst).Pairwise (· < ·) ∧
    ((rowEntries [(2, 1), (3, 2)]
        [Cell.na, Cell.text "A", Cell.text "AL", Cell.text "SL"]).map
      LeaveEntry.date).Pairwise (· ≤ ·) := by
  have h := extract_insertion_order
    [Cell.na, Cell.text "A", Cell.text "AL", Cell.text "SL"] []
    [(2, 1), (3, 2)] "A"
  exact ⟨h.1 (by decide) (by decide) (by decide), h.2.1, h.2.2 (by decide)⟩

/-- C8: a row with fewer than 3 cells is skipped entirely — no entries,
no block reset — and a block column index beyond the current row's
length contributes nothing: the inner loop behaves as if such columns
were filtered out, rather than raising. -/
theorem malformed_input_safe (row : List Cell) (rest : List (List Cell))
    (block : List (Nat × Int)) (t : String) :
    (row.length < 3 → extractLoop (row :: rest) block t = extractLoop rest block t) ∧
    rowEntries block row
      = rowEntries (block.filter fun p => p.1 < row.length) row := by
  constructor
  · intro h3
    simp only [extractLoop]
    rw [if_pos h3]
  · induction block with
    | nil => rfl
    | cons p bs ih =>
      rw [List.filter_cons]
      by_cases hb : p.1 < row.length
      · rw [if_pos (by simpa using hb)]
        simp only [rowEntries, List.filterMap_cons] at ih ⊢
        rw [ih]
      · rw [if_neg (by simpa using hb)]
        have hnone : entryOf row p = none := by
          have : row[p.1]? = none :=
            List.getElem?_eq_none_iff.mpr (by omega)
          simp [entryOf, this]
        simp only [rowEntries, List.filterMap_cons, hnone] at ih ⊢
        exact ih

/-- C8 witness: a concrete 2-cell row is skipped with the block intact,
and a block column beyond a concrete row's length is skipped. -/
theorem malformed_input_safe_witness :
    (extractLoop [[Cell.na, Cell.text "A"], [Cell.text "x", Cell.text "A", Cell.text "AL"]]
        [(2, 1)] "A"
      = extractLoop [[Cell.text "x", Cell.text "A", Cell.text "AL"]] [(2, 1)] "A") ∧
    rowEntries [(2, 1), (9, 4)] [Cell.text "x", Cell.text "A", Cell.text "AL"]
      = rowEntries (([(2, 1), (9, 4)] : List (Nat × Int)).filter
          fun p => p.1 < ([Cell.text "x", Cell.text "A", Cell.text "AL"] : List Cell).length)
        [Cell.text "x", Cell.text "A", Cell.text "AL"] := by
  have h := malformed_input_safe [Cell.na, Cell.text "A"]
    [[Cell.text "x", Cell.text "A", Cell.text "AL"]] [(2, 1)] "A"
  have h2 := malformed_input_safe [Cell.text "x", Cell.text "A", Cell.text "AL"]
    [] [(2, 1), (9, 4)] "A"
  exact ⟨h.1 (by decide), h2.2⟩

end ControlLeaveReader
